import Mathlib

/-!
Shallow embedding of the `pydyf` low-level PDF generator
(`src/pydyf/__init__.py`) and proofs about it.

Modelling conventions:
* Byte strings (Python `bytes`) are `List Nat`, one entry per byte.
* Python `str` values are Lean `String`; `.encode('ascii')` is modelled by
  `asciiBytes` (total on the ASCII texts the library actually passes), and
  the fallible encode attempted by `String.data` is modelled by
  `encodeAscii : String → Option (List Nat)` (`none` is Python's
  `UnicodeEncodeError`).
* Python floats are modelled as exact rationals; `float.is_integer()`
  becomes `q.den = 1` and the `f'{x:f}'` fixed-point format becomes
  rounding (half to even, as printf does on the exact value) to six
  fractional digits.
* `zlib`'s deflate is external to the repository; stream encoding is
  parameterised by the compression function `fn : List Nat → List Nat`.
* Mutation of Python attributes is modelled by explicit state passing:
  functions return the updated object / document state next to the bytes
  they produce.
-/

namespace Pydyf

set_option maxRecDepth 4000

/-- Byte strings: Python `bytes`, one `Nat` per byte. -/
abbrev ByteStr := List Nat

/-- ASCII encoding of a Lean string, one byte per character.  Models
`str.encode('ascii')` on the ASCII-only texts the library passes around
(keys, operator names, fixed keywords). -/
def asciiBytes (s : String) : ByteStr := s.data.map Char.toNat

/-- The fallible `str.encode('ascii')`: `none` models `UnicodeEncodeError`
(raised as soon as some character is outside the 7-bit range). -/
def encodeAscii (s : String) : Option ByteStr :=
  if s.data.all (fun c => c.toNat ≤ 127) then some (asciiBytes s) else none

/-- Decimal digits (ASCII bytes, most significant first) of a natural
number, with explicit fuel so that the definition is structural and
kernel-computable.  `natDigitsAux (n+1) n` always has enough fuel. -/
def natDigitsAux : Nat → Nat → ByteStr
  | 0, _ => []
  | fuel + 1, n =>
    if n < 10 then [48 + n]
    else natDigitsAux fuel (n / 10) ++ [48 + n % 10]

/-- Decimal ASCII digits of a natural number: Python `f'{n:d}'` for
non-negative `n`. -/
def natToDigits (n : Nat) : ByteStr := natDigitsAux (n + 1) n

/-- Python `f'{i:d}'`: plain decimal digits, `-` sign when negative. -/
def intToBytes : Int → ByteStr
  | .ofNat n => natToDigits n
  | .negSucc n => 45 :: natToDigits (n + 1)

/-- Round `num / den` to the nearest integer, ties to even (the rounding
`printf`-style `%f` formatting performs on the exact value). -/
def roundHalfEven (num den : Nat) : Nat :=
  let q := num / den
  let r := num % den
  if den < 2 * r then q + 1
  else if 2 * r < den then q
  else if q % 2 = 1 then q + 1 else q

/-- Left-pad a digit string with ASCII `0` up to width `w`
(Python `f'{n:0{w}}'`). -/
def padZeros (w : Nat) (ds : ByteStr) : ByteStr :=
  List.replicate (w - ds.length) 48 ++ ds

/-- Python `f'{x:f}'` on the rational model of a float: sign, integer part,
`.`, exactly six fractional digits. -/
def floatFixed6 (q : ℚ) : ByteStr :=
  let n := roundHalfEven (q.num.natAbs * 1000000) q.den
  let ds := padZeros 7 (natToDigits n)
  (if q < 0 then [45] else []) ++
    ds.take (ds.length - 6) ++ [46] ++ ds.drop (ds.length - 6)

/-- The float branch of `_to_bytes`: integral floats print as bare
integers (`f'{int(item):d}'`), all others in fixed-point (`f'{item:f}'`). -/
def floatToBytes (q : ℚ) : ByteStr :=
  if q.den = 1 then intToBytes q.num else floatFixed6 q

/-- `bytes.flatten`: concatenate with a separator between consecutive
pieces. -/
def joinWith (sep : ByteStr) : List ByteStr → ByteStr
  | [] => []
  | [x] => x
  | x :: y :: rest => x ++ sep ++ joinWith sep (y :: rest)

/-- Encodable PDF values, as they occur in dictionaries, arrays and
content streams: raw bytes, `int`, `float` (as a rational), `str`,
nested `Dictionary` and nested `Array` objects. -/
inductive PDFVal where
  | vbytes (bs : ByteStr)
  | vint (i : Int)
  | vfloat (q : ℚ)
  | vstr (s : String)
  | vdict (entries : List (String × PDFVal))
  | varray (items : List PDFVal)

mutual

/-- `_to_bytes`: bytes pass through, objects contribute their `data`,
floats and ints print as decimals, anything else is `str(...)` encoded
as ASCII.  Nested `Dictionary.data` and `Array.data` are the two
recursive cases.  (For a non-ASCII `str` Python would raise
`UnicodeEncodeError`; the library only reaches this branch with ASCII
text, the one fallible use being modelled by `encodeAscii` in
`stringData`.) -/
def toBytes : PDFVal → ByteStr
  | .vbytes bs => bs
  | .vint i => intToBytes i
  | .vfloat q => floatToBytes q
  | .vstr s => asciiBytes s
  | .vdict entries => joinWith [10] ([[60, 60]] ++ dictLines entries ++ [[62, 62]])
  | .varray items => joinWith [32] ([[91]] ++ arrayItems items ++ [[93]])

/-- The per-entry lines of `Dictionary.data`:
`b'/' + _to_bytes(key) + b' ' + _to_bytes(value)` in insertion order. -/
def dictLines : List (String × PDFVal) → List ByteStr
  | [] => []
  | (k, v) :: rest => ([47] ++ asciiBytes k ++ [32] ++ toBytes v) :: dictLines rest

/-- The element pieces of `Array.data`, in order. -/
def arrayItems : List PDFVal → List ByteStr
  | [] => []
  | v :: rest => toBytes v :: arrayItems rest

end

/-- `Dictionary.data` for a plain entry list. -/
def dictData (entries : List (String × PDFVal)) : ByteStr :=
  toBytes (.vdict entries)

/-- Python `dict.__setitem__` on the insertion-ordered entry list: an
existing key keeps its position (value replaced), a new key is appended. -/
def dictSet (entries : List (String × PDFVal)) (k : String) (v : PDFVal) :
    List (String × PDFVal) :=
  if entries.any (fun kv => kv.1 = k) then
    entries.map (fun kv => if kv.1 = k then (k, v) else kv)
  else entries ++ [(k, v)]

/-- Python `dict.__getitem__` (as an `Option`): first binding of the key. -/
def dictLookup (k : String) : List (String × PDFVal) → Option PDFVal
  | [] => none
  | kv :: rest => if kv.1 = k then some kv.2 else dictLookup k rest

/-- Python `dict[k] = f(dict[k])` for a key already present: every binding
of `k` is rewritten in place (there is at most one in a real dict). -/
def dictModifyKey (k : String) (f : PDFVal → PDFVal)
    (entries : List (String × PDFVal)) : List (String × PDFVal) :=
  entries.map (fun kv => if kv.1 = k then (k, f kv.2) else kv)

/-- UTF-16 big-endian encoding of a text (`str.encode('utf-16-be')`):
two bytes per code point in the basic plane, a surrogate pair (four
bytes) above it. -/
def utf16be : List Char → ByteStr
  | [] => []
  | c :: rest =>
    let n := c.toNat
    (if n < 65536 then [n / 256, n % 256]
     else
       let m := n - 65536
       [(55296 + m / 1024) / 256, (55296 + m / 1024) % 256,
        (56320 + m % 1024) / 256, (56320 + m % 1024) % 256]) ++ utf16be rest

/-- One lowercase hexadecimal digit. -/
def hexDigit (n : Nat) : Nat := if n < 10 then 48 + n else 87 + n

/-- `bytes.hex()` re-encoded as ASCII: two lowercase hex digits per
byte. -/
def hexBytes : ByteStr → ByteStr
  | [] => []
  | b :: rest => hexDigit (b / 16) :: hexDigit (b % 16) :: hexBytes rest

/-- `codecs.BOM_UTF16_BE`. -/
def bomBytes : ByteStr := [254, 255]

/-- `String.data`: try the literal `(`…`)` ASCII form; on
`UnicodeEncodeError` fall back to `<`…`>` holding the lowercase hex of
the BOM-prefixed UTF-16BE encoding. -/
def stringData (text : String) : ByteStr :=
  match encodeAscii text with
  | some bs => [40] ++ bs ++ [41]
  | none => [60] ++ hexBytes (bomBytes ++ utf16be text.data) ++ [62]

/-- The mutable fields of a `Stream` object that its `data` property
reads: the token list, the caller's `extra` dict, the `compress` flag. -/
structure StreamO where
  stream : List PDFVal
  extra : List (String × PDFVal)
  compress : Bool

/-- The raw stream body: `b'\n'.flatten(_to_bytes(item) for item in
self.stream)`. -/
def streamRaw (st : StreamO) : ByteStr :=
  joinWith [10] (st.stream.map toBytes)

/-- The final stream body: deflate-compressed (by the ambient `zlib`
function `fn`) exactly when `compress` is set. -/
def streamBody (fn : ByteStr → ByteStr) (st : StreamO) : ByteStr :=
  if st.compress then fn (streamRaw st) else streamRaw st

/-- The dictionary emitted in front of the body: a copy of `extra`, with
`Filter` set (when compressing) and then `Length` set to the byte length
of the final body. -/
def streamFinalExtra (fn : ByteStr → ByteStr) (st : StreamO) :
    List (String × PDFVal) :=
  let e := if st.compress then dictSet st.extra "Filter" (.vstr "/FlateDecode")
           else st.extra
  dictSet e "Length" (.vint (streamBody fn st).length)

/-- `Stream.data`, with the object's state threaded through explicitly:
the source mutates only `Dictionary(self.extra.copy())`, a copy, so the
returned state is the received one. -/
def StreamO.dataRun (fn : ByteStr → ByteStr) (st : StreamO) :
    ByteStr × StreamO :=
  (joinWith [10]
    [dictData (streamFinalExtra fn st),
     asciiBytes "stream",
     streamBody fn st,
     asciiBytes "endstream"], st)

/-- The `data`-determining payload of a registered object: the base
`Object` class (whose `data` raises `NotImplementedError`), or one of the
concrete variants `Dictionary`, `Array`, `String`, `Stream`. -/
inductive ObjPayload where
  | base
  | dict (entries : List (String × PDFVal))
  | arr (items : List PDFVal)
  | strobj (text : String)
  | stream (st : StreamO)

/-- A PDF `Object`: `number` (`None` before registration), `offset`,
`generation`, the `free` flag character, and the variant payload. -/
structure Obj where
  number : Option Nat
  offset : Nat
  generation : Nat
  free : Char
  payload : ObjPayload

instance : Inhabited Obj := ⟨⟨none, 0, 0, 'n', .base⟩⟩

/-- `str(self.number)`: digits once registered, `"None"` before. -/
def numRepr : Option Nat → ByteStr
  | some n => natToDigits n
  | none => asciiBytes "None"

/-- The `data` property: `none` models the `NotImplementedError` of the
base class, the concrete variants produce their encodings. -/
def payloadData (fn : ByteStr → ByteStr) : ObjPayload → Option ByteStr
  | .base => none
  | .dict entries => some (dictData entries)
  | .arr items => some (toBytes (.varray items))
  | .strobj text => some (stringData text)
  | .stream st => some (StreamO.dataRun fn st).1

/-- `Object.indirect`: number/generation line with the `obj` keyword, the
object's `data`, and `endobj`, newline-joined. -/
def Obj.indirect (fn : ByteStr → ByteStr) (o : Obj) : Option ByteStr :=
  (payloadData fn o.payload).map fun d =>
    joinWith [10]
      [numRepr o.number ++ [32] ++ natToDigits o.generation ++ asciiBytes " obj",
       d,
       asciiBytes "endobj"]

/-- `Object.reference`: `"<number> <generation> R"`. -/
def Obj.reference (o : Obj) : ByteStr :=
  numRepr o.number ++ [32] ++ natToDigits o.generation ++ asciiBytes " R"

/-- The mutable state of a `PDF` document: the object list and the two
writer counters. -/
structure PDFState where
  objects : List Obj
  currentPosition : Nat
  xrefPosition : Option Nat

/-- `PDF.add_object`: sets `number` to the current length of the object
list and appends; the pair returns the now-numbered object (Python
mutates it in place). -/
def addObject (o : Obj) (s : PDFState) : Obj × PDFState :=
  let o' := { o with number := some s.objects.length }
  (o', { s with objects := s.objects ++ [o'] })

/-- Replace the element at an index by `f` of it (out-of-range indices
leave the list unchanged); models in-place mutation of a list element. -/
def modifyAt (f : α → α) : Nat → List α → List α
  | _, [] => []
  | 0, x :: rest => f x :: rest
  | n + 1, x :: rest => x :: modifyAt f n rest

/-- The entries the page tree `Dictionary` is constructed with. -/
def pagesEntries : List (String × PDFVal) :=
  [("Type", .vstr "/Pages"), ("Kids", .varray []), ("Count", .vint 0)]

/-- `PDF.__init__`: register the reserved free head (generation 65535,
flag `'f'`), the page tree, the (empty) info dictionary, and the catalog
(whose `Pages` entry is the page tree's reference, taken after the page
tree was registered); counters start at `0` / `None`. -/
def freshPDF : PDFState :=
  let s0 : PDFState := ⟨[], 0, none⟩
  let (_, s1) := addObject ⟨none, 0, 65535, 'f', .base⟩ s0
  let (pages, s2) := addObject ⟨none, 0, 0, 'n', .dict pagesEntries⟩ s1
  let (_, s3) := addObject ⟨none, 0, 0, 'n', .dict []⟩ s2
  let catalog : Obj :=
    ⟨none, 0, 0, 'n',
     .dict [("Type", .vstr "/Catalog"), ("Pages", .vbytes pages.reference)]⟩
  (addObject catalog s3).2

/-- `self.pages['Count'] += 1` (the entry is an `int` in every reachable
state; Python would fail on any other type). -/
def incrVal : PDFVal → PDFVal
  | .vint n => .vint (n + 1)
  | v => v

/-- `self.pages['Kids'].extend(xs)` (the entry is an `Array` in every
reachable state). -/
def extendArr (xs : List PDFVal) : PDFVal → PDFVal
  | .varray items => .varray (items ++ xs)
  | v => v

/-- Apply an entry-list rewrite to an object whose payload is a
dictionary (all reachable uses are on the page tree, a dictionary). -/
def objMapDict (f : List (String × PDFVal) → List (String × PDFVal))
    (o : Obj) : Obj :=
  match o.payload with
  | .dict entries => { o with payload := .dict (f entries) }
  | _ => o

/-- `PDF.add_page`: increment the page tree's `Count`, register the page,
then extend the page tree's `Kids` with `[page.number, 0, 'R']`.  The
page tree is `self.objects[1]` in every reachable state. -/
def addPage (page : Obj) (s : PDFState) : PDFState :=
  let objs1 := modifyAt (objMapDict (dictModifyKey "Count" incrVal)) 1 s.objects
  let (page', s2) := addObject page { s with objects := objs1 }
  let triplet : List PDFVal :=
    [.vint (page'.number.getD 0 : Nat), .vint 0, .vstr "R"]
  let objs2 :=
    modifyAt (objMapDict (dictModifyKey "Kids" (extendArr triplet))) 1 s2.objects
  { s2 with objects := objs2 }

/-- `PDF.write_line`: advance `current_position` by the content length
plus one and emit the content followed by a newline. -/
def writeLine (content : ByteStr) (s : PDFState) : PDFState × ByteStr :=
  ({ s with currentPosition := s.currentPosition + content.length + 1 },
   content ++ [10])

/-- Split a byte string on the newline byte (Python
`data.split(b'\n')`): always at least one piece, empty trailing piece
after a trailing newline. -/
def splitNl : ByteStr → List ByteStr
  | [] => [[]]
  | b :: rest =>
    if b = 10 then [] :: splitNl rest
    else
      match splitNl rest with
      | [] => [[b]]
      | l :: ls => (b :: l) :: ls

/-- Write a sequence of lines with `write_line`. -/
def writeLines : List ByteStr → PDFState → PDFState × ByteStr
  | [], s => (s, [])
  | l :: rest, s =>
    ((writeLines rest (writeLine l s).1).1,
     (writeLine l s).2 ++ (writeLines rest (writeLine l s).1).2)

/-- `PDF.write_object`: write each newline-separated line of the data. -/
def writeObject (d : ByteStr) (s : PDFState) : PDFState × ByteStr :=
  writeLines (splitNl d) s

/-- The second header line `b'%\xf0\x9f\x96\xa4'`. -/
def headerMarker : ByteStr := [37, 240, 159, 150, 164]

/-- `PDF.write_header`: the version comment and the binary marker. -/
def writeHeader (s : PDFState) : PDFState × ByteStr :=
  let r1 := writeLine (asciiBytes "%PDF-1.7") s
  let r2 := writeLine headerMarker r1.1
  (r2.1, r1.2 ++ r2.2)

/-- The body loop of `PDF.write_body` over a list of objects starting at
a given position: free objects are skipped, every other object first
records the running position as its `offset` and is then emitted in
indirect form on one `write_line` call.  `none` models the
`NotImplementedError` a payload-less base object would raise. -/
def bodyStep (fn : ByteStr → ByteStr) (pos : Nat) :
    List Obj → Option (List Obj × Nat × ByteStr)
  | [] => some ([], pos, [])
  | o :: rest =>
    if o.free = 'f' then
      (bodyStep fn pos rest).map fun r => (o :: r.1, r.2.1, r.2.2)
    else
      match Obj.indirect fn o with
      | none => none
      | some ind =>
        (bodyStep fn (pos + ind.length + 1) rest).map fun r =>
          ({ o with offset := pos } :: r.1, r.2.1, (ind ++ [10]) ++ r.2.2)

/-- `PDF.write_body` on the document state. -/
def writeBody (fn : ByteStr → ByteStr) (s : PDFState) :
    Option (PDFState × ByteStr) :=
  (bodyStep fn s.currentPosition s.objects).map fun r =>
    ({ s with objects := r.1, currentPosition := r.2.1 }, r.2.2)

/-- One cross-reference row (before the newline):
`f'{offset:010} {generation:05} {free} '`. -/
def xrefRow (o : Obj) : ByteStr :=
  padZeros 10 (natToDigits o.offset) ++ [32] ++
    padZeros 5 (natToDigits o.generation) ++ [32] ++ [o.free.toNat] ++ [32]

/-- The row-emitting loop of `PDF.write_cross_reference_table`. -/
def xrefRows : List Obj → PDFState → PDFState × ByteStr
  | [], s => (s, [])
  | o :: rest, s =>
    ((xrefRows rest (writeLine (xrefRow o) s).1).1,
     (writeLine (xrefRow o) s).2 ++ (xrefRows rest (writeLine (xrefRow o) s).1).2)

/-- `PDF.write_cross_reference_table`: record the table position, then
`xref`, the `0 <count>` subsection header, and one row per object. -/
def writeXref (s : PDFState) : PDFState × ByteStr :=
  let s0 : PDFState := { s with xrefPosition := some s.currentPosition }
  let r1 := writeLine (asciiBytes "xref") s0
  let r2 := writeLine (asciiBytes "0 " ++ natToDigits s0.objects.length) r1.1
  let r3 := xrefRows s0.objects r2.1
  (r3.1, r1.2 ++ r2.2 ++ r3.2)

/-- `PDF.write_trailer`: `trailer`, the trailer dictionary (written with
`write_object`), `startxref`, the recorded table position, `%%EOF`.
`self.info` and `self.catalog` are `self.objects[2]` and
`self.objects[3]` in every reachable state. -/
def trailerEntries (s : PDFState) : List (String × PDFVal) :=
  [("Size", .vint s.objects.length),
   ("Root", .vbytes (s.objects.getD 3 default).reference),
   ("Info", .vbytes (s.objects.getD 2 default).reference)]

def writeTrailer (s : PDFState) : PDFState × ByteStr :=
  let r1 := writeLine (asciiBytes "trailer") s
  let r2 := writeObject (dictData (trailerEntries s)) r1.1
  let r3 := writeLine (asciiBytes "startxref") r2.1
  let r4 := writeLine (numRepr r3.1.xrefPosition) r3.1
  let r5 := writeLine (asciiBytes "%%EOF") r4.1
  (r5.1, r1.2 ++ r2.2 ++ r3.2 ++ r4.2 ++ r5.2)

/-- `PDF.write`: header, body, cross-reference table, trailer, in that
order, on one sink; the concatenated phase outputs are the bytes the
sink received. -/
def writePDF (fn : ByteStr → ByteStr) (s : PDFState) :
    Option (PDFState × ByteStr) :=
  let h := writeHeader s
  match writeBody fn h.1 with
  | none => none
  | some b =>
    let x := writeXref b.1
    let t := writeTrailer x.1
    some (t.1, h.2 ++ b.2 ++ x.2 ++ t.2)

/-- Bump a recorded offset by `k` — exactly what a repeated `write` call
does to every in-use object's offset (free objects are never written, so
their offsets stay). -/
def shiftObj (k : Nat) (o : Obj) : Obj :=
  if o.free = 'f' then o else { o with offset := k + o.offset }

/-- The entry list of an object whose payload is a dictionary. -/
def objEntries (o : Obj) : List (String × PDFVal) :=
  match o.payload with
  | .dict entries => entries
  | _ => []

/-- Result of the first `write` call on a freshly constructed document
(the call succeeds, see `firstWrite_spec`). -/
def firstWrite : PDFState × ByteStr :=
  (writePDF id freshPDF).getD (freshPDF, [])

/-- Result of a second `write` call, made on the document state the
first call left behind. -/
def secondWrite : PDFState × ByteStr :=
  (writePDF id firstWrite.1).getD (freshPDF, [])

/-- A page dictionary whose generation was set to `1` by the caller
before `add_page` (the `generation` attribute is writable and defaults
to `0`). -/
def genOnePage : Obj := ⟨none, 0, 1, 'n', .dict []⟩

/-- The body bytes a `write` call starting from state `s` emits (header
phase advances the position first, exactly as in `write`). -/
def bodyOutput (fn : ByteStr → ByteStr) (s : PDFState) : Option ByteStr :=
  (writeBody fn (writeHeader s).1).map fun r => r.2

/-- The two header lines as emitted (with their newline terminators). -/
def headerOut : ByteStr :=
  (asciiBytes "%PDF-1.7" ++ [10]) ++ (headerMarker ++ [10])

/-- The cross-reference table section as the spec lays it out: `xref`,
the `0 <count>` subsection line, then one fixed-format row per object of
the list, in order, each newline-terminated.  `writeXref_snd` proves the
writer emits exactly this. -/
def xrefTableBytes (os : List Obj) : ByteStr :=
  (asciiBytes "xref" ++ [10]) ++
    ((asciiBytes "0 " ++ natToDigits os.length) ++ [10]) ++
    (os.map fun o => xrefRow o ++ [10]).flatten

/-- The trailer section emitted from state `s`: `trailer`, the trailer
dictionary, `startxref`, the recorded table position, `%%EOF`. -/
def trailerBytes (s : PDFState) : ByteStr :=
  (asciiBytes "trailer" ++ [10]) ++ (dictData (trailerEntries s) ++ [10]) ++
    (asciiBytes "startxref" ++ [10]) ++ (numRepr s.xrefPosition ++ [10]) ++
    (asciiBytes "%%EOF" ++ [10])

/-- Does the output `out` show object `o`'s indirect form starting at
byte position `o.offset`? (`false` also when the object has no `data`.) -/
def indirectShownAt (fn : ByteStr → ByteStr) (o : Obj) (out : ByteStr) :
    Bool :=
  match Obj.indirect fn o with
  | none => false
  | some d => (out.drop o.offset).take d.length == d

/-- Does `pat` occur at the start of `s`? -/
def startsWithB : ByteStr → ByteStr → Bool
  | [], _ => true
  | _ :: _, [] => false
  | p :: ps, b :: bs => p == b && startsWithB ps bs

/-- Does `pat` occur contiguously anywhere inside `s`? -/
def hasSub (pat : ByteStr) : ByteStr → Bool
  | [] => startsWithB pat []
  | b :: rest => startsWithB pat (b :: rest) || hasSub pat rest

/-! ## Lemmas about the decimal printers -/

theorem natDigitsAux_mem_digit {fuel n d : Nat}
    (h : d ∈ natDigitsAux fuel n) : 48 ≤ d ∧ d ≤ 57 := by
  induction fuel generalizing n with
  | zero => simp [natDigitsAux] at h
  | succ fuel ih =>
    rw [natDigitsAux] at h
    by_cases hn : n < 10
    · simp [hn] at h
      omega
    · simp [hn] at h
      rcases h with h | h
      · exact ih h
      · have : n % 10 < 10 := Nat.mod_lt _ (by omega)
        omega

theorem natToDigits_mem_digit {n d : Nat}
    (h : d ∈ natToDigits n) : 48 ≤ d ∧ d ≤ 57 :=
  natDigitsAux_mem_digit h

theorem natDigitsAux_ne_nil {n : Nat} : natDigitsAux (n + 1) n ≠ [] := by
  rw [natDigitsAux]
  by_cases hn : n < 10 <;> simp [hn]

theorem natDigitsAux_length_le {fuel n k : Nat} (hk : 1 ≤ k)
    (h : n < 10 ^ k) : (natDigitsAux fuel n).length ≤ k := by
  induction fuel generalizing n k with
  | zero => simp [natDigitsAux]
  | succ fuel ih =>
    rw [natDigitsAux]
    by_cases hn : n < 10
    · simpa [hn] using hk
    · simp only [hn, if_false, List.length_append, List.length_cons,
        List.length_nil]
      have hk2 : 2 ≤ k := by
        by_contra hlt
        have hk1 : k = 1 := by omega
        subst hk1
        rw [pow_one] at h
        omega
      have hdiv : n / 10 < 10 ^ (k - 1) := by
        rw [Nat.div_lt_iff_lt_mul (by omega : 0 < 10)]
        calc n < 10 ^ k := h
        _ = 10 ^ (k - 1) * 10 := by
              rw [← pow_succ]
              congr 1
              omega
      have := ih (k := k - 1) (by omega) hdiv
      omega

theorem natToDigits_length_le {n k : Nat} (hk : 1 ≤ k)
    (h : n < 10 ^ k) : (natToDigits n).length ≤ k :=
  natDigitsAux_length_le hk h

theorem padZeros_length (w : Nat) (ds : ByteStr) :
    (padZeros w ds).length = max w ds.length := by
  simp [padZeros]
  omega

theorem padZeros_mem_digit {w d : Nat} {ds : ByteStr}
    (hds : ∀ x ∈ ds, 48 ≤ x ∧ x ≤ 57) (h : d ∈ padZeros w ds) :
    48 ≤ d ∧ d ≤ 57 := by
  simp only [padZeros, List.mem_append, List.mem_replicate] at h
  rcases h with h | h
  · omega
  · exact hds d h

theorem intToBytes_eq (i : Int) :
    intToBytes i = (if i < 0 then [45] else []) ++ natToDigits i.natAbs := by
  cases i with
  | ofNat n =>
    simp [intToBytes, Int.natAbs]
  | negSucc n =>
    have h : Int.negSucc n < 0 := Int.negSucc_lt_zero n
    simp [intToBytes, Int.natAbs, h]

theorem intToBytes_mem {i : Int} {d : Nat} (h : d ∈ intToBytes i) :
    d = 45 ∨ (48 ≤ d ∧ d ≤ 57) := by
  rw [intToBytes_eq] at h
  simp only [List.mem_append] at h
  rcases h with h | h
  · by_cases hi : i < 0 <;> simp [hi] at h <;> omega
  · exact Or.inr (natToDigits_mem_digit h)

theorem floatFixed6_spec (q : ℚ) :
    ∃ ip fp : ByteStr,
      floatFixed6 q = (if q < 0 then [45] else []) ++ ip ++ [46] ++ fp ∧
      fp.length = 6 ∧ (∀ d ∈ ip, 48 ≤ d ∧ d ≤ 57) ∧
      ∀ d ∈ fp, 48 ≤ d ∧ d ≤ 57 := by
  set n := roundHalfEven (q.num.natAbs * 1000000) q.den with hn
  set ds := padZeros 7 (natToDigits n) with hds
  have hlen : 7 ≤ ds.length := by
    rw [hds, padZeros_length]
    omega
  have hmem : ∀ d ∈ ds, 48 ≤ d ∧ d ≤ 57 := fun d hd =>
    padZeros_mem_digit (fun x hx => natToDigits_mem_digit hx) hd
  refine ⟨ds.take (ds.length - 6), ds.drop (ds.length - 6), ?_, ?_, ?_, ?_⟩
  · rw [floatFixed6]
  · rw [List.length_drop]
    omega
  · exact fun d hd => hmem d (List.take_subset _ _ hd)
  · exact fun d hd => hmem d (List.drop_subset _ _ hd)

/-! ## C3: the numeric branches of the value encoder -/

/-- **C3.** For every float input (modelled as an exact rational): an
integral value encodes as the bare decimal integer digits of its value
(sign included, no decimal point, no fractional digits); a non-integral
value encodes in fixed-point form — optional `-` sign, decimal digits,
one `.`, exactly six fractional decimal digits — never in exponential
notation (no `e`/`E` anywhere); and integers encode as plain decimal
ASCII digits with a `-` sign exactly when negative. -/
theorem toBytes_numeric_forms (q : ℚ) (i : Int) :
    (q.den = 1 →
      floatToBytes q = intToBytes q.num ∧ 46 ∉ floatToBytes q) ∧
    (q.den ≠ 1 →
      ∃ ip fp : ByteStr,
        floatToBytes q = (if q < 0 then [45] else []) ++ ip ++ [46] ++ fp ∧
        fp.length = 6 ∧ (∀ d ∈ ip, 48 ≤ d ∧ d ≤ 57) ∧
        (∀ d ∈ fp, 48 ≤ d ∧ d ≤ 57) ∧
        101 ∉ floatToBytes q ∧ 69 ∉ floatToBytes q) ∧
    (intToBytes i = (if i < 0 then [45] else []) ++ natToDigits i.natAbs ∧
      ∀ d ∈ natToDigits i.natAbs, 48 ≤ d ∧ d ≤ 57) := by
  refine ⟨?_, ?_, intToBytes_eq i, fun d hd => natToDigits_mem_digit hd⟩
  · intro h1
    refine ⟨by simp [floatToBytes, h1], ?_⟩
    simp only [floatToBytes, h1, if_true]
    intro hmem
    rcases intToBytes_mem hmem with h | h <;> omega
  · intro h1
    obtain ⟨ip, fp, heq, hfp, hipd, hfpd⟩ := floatFixed6_spec q
    have hval : floatToBytes q = floatFixed6 q := by simp [floatToBytes, h1]
    have hnoe : ∀ x, x ∈ floatToBytes q → (48 ≤ x ∧ x ≤ 57) ∨ x = 45 ∨ x = 46 := by
      intro x hx
      rw [hval, heq] at hx
      simp only [List.mem_append, List.mem_singleton] at hx
      rcases hx with ((hx | hx) | hx) | hx
      · by_cases hq : q < 0 <;> simp [hq] at hx <;> omega
      · exact Or.inl (hipd x hx)
      · omega
      · exact Or.inl (hfpd x hx)
    refine ⟨ip, fp, hval ▸ heq, hfp, hipd, hfpd, ?_, ?_⟩
    · intro hc
      rcases hnoe 101 hc with h | h | h <;> omega
    · intro hc
      rcases hnoe 69 hc with h | h | h <;> omega

/-! ## Lemmas about string encoding -/

theorem encodeAscii_of_ascii {t : String} (h : ∀ c ∈ t.data, c.toNat ≤ 127) :
    encodeAscii t = some (asciiBytes t) := by
  rw [encodeAscii, if_pos]
  rw [List.all_eq_true]
  intro c hc
  exact decide_eq_true (h c hc)

theorem encodeAscii_of_nonascii {t : String} (h : ¬ ∀ c ∈ t.data, c.toNat ≤ 127) :
    encodeAscii t = none := by
  rw [encodeAscii, if_neg]
  rw [List.all_eq_true]
  intro hall
  exact h fun c hc => of_decide_eq_true (hall c hc)

theorem utf16be_mem_lt {cs : List Char} {b : Nat} (h : b ∈ utf16be cs) :
    b < 256 := by
  induction cs with
  | nil => simp [utf16be] at h
  | cons c rest ih =>
    rw [utf16be, List.mem_append] at h
    rcases h with h | h
    · have hval : c.toNat < 1114112 := by
        have hv := c.valid
        rcases hv with hlt | ⟨_, hlt2⟩
        · calc Char.toNat c < 55296 := hlt
          _ < 1114112 := by omega
        · exact hlt2
      by_cases hb : c.toNat < 65536
      · simp only [hb, if_true, List.mem_cons, List.not_mem_nil, or_false] at h
        rcases h with h | h
        · omega
        · have : c.toNat % 256 < 256 := Nat.mod_lt _ (by omega)
          omega
      · simp only [hb, if_false, List.mem_cons, List.not_mem_nil, or_false] at h
        have h1 : (c.toNat - 65536) / 1024 < 1024 := by
          rw [Nat.div_lt_iff_lt_mul (by omega : 0 < 1024)]
          omega
        have h2 : (c.toNat - 65536) % 1024 < 1024 := Nat.mod_lt _ (by omega)
        have e1 : (55296 + (c.toNat - 65536) / 1024) / 256 < 256 := by
          rw [Nat.div_lt_iff_lt_mul (by omega : 0 < 256)]
          omega
        have e2 : (56320 + (c.toNat - 65536) % 1024) / 256 < 256 := by
          rw [Nat.div_lt_iff_lt_mul (by omega : 0 < 256)]
          omega
        have e3 : (55296 + (c.toNat - 65536) / 1024) % 256 < 256 :=
          Nat.mod_lt _ (by omega)
        have e4 : (56320 + (c.toNat - 65536) % 1024) % 256 < 256 :=
          Nat.mod_lt _ (by omega)
        rcases h with h | h | h | h <;> omega
    · exact ih h

theorem hexDigit_range {n : Nat} (h : n < 16) :
    (48 ≤ hexDigit n ∧ hexDigit n ≤ 57) ∨ (97 ≤ hexDigit n ∧ hexDigit n ≤ 102) := by
  rw [hexDigit]
  by_cases hn : n < 10
  · simp only [hn, if_true]
    omega
  · simp only [hn, if_false]
    omega

theorem hexBytes_mem {bs : ByteStr} {d : Nat}
    (hbs : ∀ b ∈ bs, b < 256) (h : d ∈ hexBytes bs) :
    (48 ≤ d ∧ d ≤ 57) ∨ (97 ≤ d ∧ d ≤ 102) := by
  induction bs with
  | nil => simp [hexBytes] at h
  | cons b rest ih =>
    have hb : b < 256 := hbs b (List.mem_cons_self _ _)
    rw [hexBytes] at h
    rcases List.mem_cons.mp h with h1 | h2
    · exact h1 ▸ hexDigit_range (by omega)
    · rcases List.mem_cons.mp h2 with h1 | h3
      · have hm : b % 16 < 16 := Nat.mod_lt _ (by omega)
        exact h1 ▸ hexDigit_range hm
      · exact ih (fun x hx => hbs x (List.mem_cons_of_mem _ hx)) h3

/-! ## C4: String object encoding and its automatic fallback -/

/-- **C4.** A `String` whose text is fully ASCII-encodable encodes as the
text's bytes in parentheses; any other text makes the (internally
caught) encode failure switch to the BOM-prefixed UTF-16BE form rendered
as lowercase hexadecimal in angle brackets.  The choice depends only on
the text's content, and both branches are total — no error escapes. -/
theorem stringData_cases (t : String) :
    ((∀ c ∈ t.data, c.toNat ≤ 127) →
      stringData t = [40] ++ asciiBytes t ++ [41]) ∧
    ((¬ ∀ c ∈ t.data, c.toNat ≤ 127) →
      stringData t = [60] ++ hexBytes (bomBytes ++ utf16be t.data) ++ [62] ∧
      ∀ d ∈ hexBytes (bomBytes ++ utf16be t.data),
        (48 ≤ d ∧ d ≤ 57) ∨ (97 ≤ d ∧ d ≤ 102)) := by
  constructor
  · intro h
    rw [stringData, encodeAscii_of_ascii h]
  · intro h
    refine ⟨by rw [stringData, encodeAscii_of_nonascii h], ?_⟩
    intro d hd
    refine hexBytes_mem ?_ hd
    intro b hb
    rw [bomBytes] at hb
    rcases List.mem_append.mp hb with hb1 | hb2
    · simp only [List.mem_cons, List.not_mem_nil, or_false] at hb1
      rcases hb1 with rfl | rfl
      · omega
      · omega
    · exact utf16be_mem_lt hb2

/-! ## Lemmas about dictionary update and lookup -/

theorem dictLookup_append_of_none {k : String} {l m : List (String × PDFVal)}
    (h : dictLookup k l = none) :
    dictLookup k (l ++ m) = dictLookup k m := by
  induction l with
  | nil => simp
  | cons kv rest ih =>
    rw [dictLookup] at h
    by_cases hk : kv.1 = k
    · simp [hk] at h
    · rw [List.cons_append, dictLookup, if_neg hk]
      exact ih (by rwa [if_neg hk] at h)

theorem dictLookup_of_not_any {k : String} {l : List (String × PDFVal)}
    (h : l.any (fun kv => kv.1 = k) = false) :
    dictLookup k l = none := by
  induction l with
  | nil => rfl
  | cons kv rest ih =>
    rw [List.any_cons, Bool.or_eq_false_iff] at h
    rw [dictLookup, if_neg (by simpa using h.1)]
    exact ih h.2

theorem dictLookup_map_set_of_any {k : String} {v : PDFVal}
    {l : List (String × PDFVal)} (h : l.any (fun kv => kv.1 = k) = true) :
    dictLookup k (l.map fun kv => if kv.1 = k then (k, v) else kv) = some v := by
  induction l with
  | nil => simp at h
  | cons kv rest ih =>
    rw [List.any_cons, Bool.or_eq_true] at h
    by_cases hk : kv.1 = k
    · rw [List.map_cons, if_pos hk, dictLookup, if_pos rfl]
    · rw [List.map_cons, if_neg hk, dictLookup, if_neg hk]
      exact ih (h.resolve_left (by simpa using hk))

theorem dictLookup_dictSet_self (k : String) (v : PDFVal)
    (l : List (String × PDFVal)) :
    dictLookup k (dictSet l k v) = some v := by
  rw [dictSet]
  by_cases h : l.any (fun kv => kv.1 = k)
  · rw [if_pos h]
    exact dictLookup_map_set_of_any h
  · rw [if_neg h]
    have hany : l.any (fun kv => kv.1 = k) = false := by
      rw [← Bool.not_eq_true]
      exact h
    rw [dictLookup_append_of_none (dictLookup_of_not_any hany)]
    rw [dictLookup, if_pos rfl]

theorem dictLookup_map_set_ne {k k' : String} (hne : k' ≠ k) (v : PDFVal)
    (l : List (String × PDFVal)) :
    dictLookup k' (l.map fun kv => if kv.1 = k then (k, v) else kv) =
      dictLookup k' l := by
  induction l with
  | nil => rfl
  | cons kv rest ih =>
    rw [List.map_cons]
    by_cases hk : kv.1 = k
    · rw [if_pos hk, dictLookup, dictLookup,
        if_neg (fun hc : k = k' => hne hc.symm),
        if_neg (fun hc : kv.1 = k' => hne (hc.symm.trans hk))]
      exact ih
    · rw [if_neg hk, dictLookup, dictLookup]
      by_cases hq : kv.1 = k'
      · rw [if_pos hq, if_pos hq]
      · rw [if_neg hq, if_neg hq]
        exact ih

theorem dictLookup_append_single_ne {k k' : String} (hne : k' ≠ k) (v : PDFVal)
    (l : List (String × PDFVal)) :
    dictLookup k' (l ++ [(k, v)]) = dictLookup k' l := by
  induction l with
  | nil =>
    have hc : ¬ ((k, v).1 = k') := fun hc => hne hc.symm
    show dictLookup k' [(k, v)] = none
    rw [dictLookup, if_neg hc]
    rfl
  | cons kv rest ih =>
    rw [List.cons_append, dictLookup, dictLookup]
    by_cases hq : kv.1 = k'
    · rw [if_pos hq, if_pos hq]
    · rw [if_neg hq, if_neg hq]
      exact ih

theorem dictLookup_dictSet_ne {k k' : String} (hne : k' ≠ k) (v : PDFVal)
    (l : List (String × PDFVal)) :
    dictLookup k' (dictSet l k v) = dictLookup k' l := by
  rw [dictSet]
  by_cases h : l.any (fun kv => kv.1 = k)
  · rw [if_pos h]
    exact dictLookup_map_set_ne hne v l
  · rw [if_neg h]
    exact dictLookup_append_single_ne hne v l

/-! ## C5: stream body, Length and Filter -/

/-- **C5.** For every `Stream` (and any deflate function): the emitted
bytes are the final extra dictionary, `stream`, the body, `endstream`,
newline-separated; the `Length` entry of that dictionary is exactly the
byte length of the body lying between the `stream` and `endstream`
lines; with compression enabled the body is the deflate-compressed
newline-join of the tokens and a `Filter /FlateDecode` entry is present;
without compression the body is the plain newline-join. -/
theorem streamData_spec (fn : ByteStr → ByteStr) (st : StreamO) :
    (StreamO.dataRun fn st).1 =
      dictData (streamFinalExtra fn st) ++ [10] ++ asciiBytes "stream" ++ [10] ++
        streamBody fn st ++ [10] ++ asciiBytes "endstream" ∧
    dictLookup "Length" (streamFinalExtra fn st) =
      some (.vint ((streamBody fn st).length : Int)) ∧
    (st.compress = true →
      streamBody fn st = fn (streamRaw st) ∧
      dictLookup "Filter" (streamFinalExtra fn st) =
        some (.vstr "/FlateDecode")) ∧
    (st.compress = false → streamBody fn st = streamRaw st) := by
  refine ⟨?_, ?_, ?_, ?_⟩
  · rw [StreamO.dataRun]
    simp [joinWith, List.append_assoc]
  · rw [streamFinalExtra]
    exact dictLookup_dictSet_self _ _ _
  · intro hc
    refine ⟨by rw [streamBody, hc, if_pos rfl], ?_⟩
    rw [streamFinalExtra, hc]
    rw [dictLookup_dictSet_ne (by decide) _ _]
    simp only [if_pos rfl]
    exact dictLookup_dictSet_self _ _ _
  · intro hc
    rw [streamBody, hc]
    simp

/-! ## C10: evaluating Stream.data does not mutate the stream -/

/-- **C10.** Evaluating `Stream.data` leaves the stream unchanged — the
token list and the caller's extra dict are untouched (the source copies
`extra` before inserting `Filter`/`Length`), every caller-supplied entry
other than the computed `Filter`/`Length` survives unchanged in the
emitted dictionary, and re-evaluating `data` on the resulting state
yields the same bytes. -/
theorem streamData_no_mutation (fn : ByteStr → ByteStr) (st : StreamO)
    (k : String) :
    (StreamO.dataRun fn st).2 = st ∧
    (StreamO.dataRun fn st).2.stream = st.stream ∧
    (StreamO.dataRun fn st).2.extra = st.extra ∧
    (StreamO.dataRun fn ((StreamO.dataRun fn st).2)).1 =
      (StreamO.dataRun fn st).1 ∧
    (k ≠ "Filter" → k ≠ "Length" →
      dictLookup k (streamFinalExtra fn st) = dictLookup k st.extra) := by
  refine ⟨rfl, rfl, rfl, rfl, ?_⟩
  intro hf hl
  rw [streamFinalExtra, dictLookup_dictSet_ne hl _ _]
  cases hc : st.compress
  · simp
  · simp only [if_pos rfl]
    exact dictLookup_dictSet_ne hf _ _

/-! ## C7: dictionary serialization format -/

theorem dictLines_eq_map (entries : List (String × PDFVal)) :
    dictLines entries =
      entries.map fun kv => [47] ++ asciiBytes kv.1 ++ [32] ++ toBytes kv.2 := by
  induction entries with
  | nil => rfl
  | cons kv rest ih =>
    rw [List.map_cons, ← ih]
    rfl

/-- **C7.** `Dictionary.data` emits `<<`, one `/key value` line per entry
in insertion order, and `>>`, all newline-joined; on the two-entry
example `{Type: /Page, Count: 3}` (inserted in that order) it produces
exactly `<<\n/Type /Page\n/Count 3\n>>`. -/
theorem dictionary_data_format (entries : List (String × PDFVal)) :
    dictData entries =
      joinWith [10]
        ([[60, 60]] ++
          (entries.map fun kv => [47] ++ asciiBytes kv.1 ++ [32] ++ toBytes kv.2) ++
          [[62, 62]]) ∧
    dictData [("Type", .vstr "/Page"), ("Count", .vint 3)] =
      asciiBytes "<<\n/Type /Page\n/Count 3\n>>" := by
  constructor
  · rw [dictData, toBytes, dictLines_eq_map]
  · rfl

/-! ## C6: initial object numbering and registration -/

/-- **C6.** A freshly constructed document has exactly the four reserved
objects: number 0 is the free head (generation 65535, flag `'f'`), and
numbers 1, 2, 3 are the page tree, the empty info dictionary and the
catalog; the next registered object receives number 4; and every
registration assigns `number := some (length of the list)` once, placing
the object at exactly that index while leaving all earlier entries
untouched. -/
theorem fresh_document_numbering :
    freshPDF.objects.length = 4 ∧
    freshPDF.objects.getD 0 default = ⟨some 0, 0, 65535, 'f', .base⟩ ∧
    freshPDF.objects.getD 1 default = ⟨some 1, 0, 0, 'n', .dict pagesEntries⟩ ∧
    freshPDF.objects.getD 2 default = ⟨some 2, 0, 0, 'n', .dict []⟩ ∧
    freshPDF.objects.getD 3 default =
      ⟨some 3, 0, 0, 'n',
       .dict [("Type", .vstr "/Catalog"),
              ("Pages", .vbytes (asciiBytes "1 0 R"))]⟩ ∧
    (∀ o : Obj, ((addObject o freshPDF).1).number = some 4) ∧
    ∀ (o : Obj) (s : PDFState),
      ((addObject o s).1).number = some s.objects.length ∧
      (addObject o s).2.objects.length = s.objects.length + 1 ∧
      (addObject o s).2.objects.getD s.objects.length default = (addObject o s).1 ∧
      ∀ i, i < s.objects.length →
        (addObject o s).2.objects.getD i default = s.objects.getD i default := by
  refine ⟨rfl, rfl, rfl, rfl, rfl, fun o => rfl, fun o s => ⟨rfl, ?_, ?_, ?_⟩⟩
  · rw [addObject]
    simp
  · rw [addObject]
    simp only
    rw [List.getD_append_right _ _ _ _ (Nat.le_refl _), Nat.sub_self]
    rfl
  · intro i hi
    rw [addObject]
    simp only
    rw [List.getD_append _ _ _ _ hi]

/-! ## Lemmas about list modification, array encoding and containment -/

theorem modifyAt_length (f : α → α) (n : Nat) (l : List α) :
    (modifyAt f n l).length = l.length := by
  induction l generalizing n with
  | nil =>
    cases n with
    | zero => rfl
    | succ m => rfl
  | cons x rest ih =>
    cases n with
    | zero => rfl
    | succ m =>
      rw [modifyAt, List.length_cons, List.length_cons, ih]

theorem modifyAt_append (f : α → α) {n : Nat} {l : List α} (r : List α)
    (h : n < l.length) :
    modifyAt f n (l ++ r) = modifyAt f n l ++ r := by
  induction l generalizing n with
  | nil => simp at h
  | cons x rest ih =>
    cases n with
    | zero => rfl
    | succ m =>
      rw [List.cons_append, modifyAt, modifyAt, ih (by simpa using h),
        List.cons_append]

theorem getD_modifyAt_self (f : α → α) {n : Nat} {l : List α} (d : α)
    (h : n < l.length) :
    (modifyAt f n l).getD n d = f (l.getD n d) := by
  induction l generalizing n with
  | nil => simp at h
  | cons x rest ih =>
    cases n with
    | zero => rfl
    | succ m =>
      rw [modifyAt]
      simpa using ih (by simpa using h)

theorem dictLookup_dictModifyKey_self (k : String) (f : PDFVal → PDFVal)
    (l : List (String × PDFVal)) :
    dictLookup k (dictModifyKey k f l) = (dictLookup k l).map f := by
  induction l with
  | nil => rfl
  | cons kv rest ih =>
    rw [dictModifyKey, List.map_cons]
    by_cases hk : kv.1 = k
    · rw [if_pos hk, dictLookup, if_pos rfl, dictLookup, if_pos hk]
      rfl
    · rw [if_neg hk, dictLookup, if_neg hk, dictLookup, if_neg hk]
      exact ih

theorem dictLookup_dictModifyKey_ne {k k' : String} (hne : k' ≠ k)
    (f : PDFVal → PDFVal) (l : List (String × PDFVal)) :
    dictLookup k' (dictModifyKey k f l) = dictLookup k' l := by
  induction l with
  | nil => rfl
  | cons kv rest ih =>
    rw [dictModifyKey, List.map_cons]
    by_cases hk : kv.1 = k
    · rw [if_pos hk, dictLookup, if_neg (fun hc : k = k' => hne hc.symm),
        dictLookup, if_neg (fun hc : kv.1 = k' => hne (hc.symm.trans hk))]
      exact ih
    · rw [if_neg hk, dictLookup, dictLookup]
      by_cases hq : kv.1 = k'
      · rw [if_pos hq, if_pos hq]
      · rw [if_neg hq, if_neg hq]
        exact ih

theorem objMapDict_eq {o : Obj} {pe : List (String × PDFVal)}
    (h : o.payload = .dict pe)
    (f : List (String × PDFVal) → List (String × PDFVal)) :
    objMapDict f o = { o with payload := .dict (f pe) } := by
  obtain ⟨num, off, gen, fr, pl⟩ := o
  simp only at h
  subst h
  rfl

theorem arrayItems_eq_map (items : List PDFVal) :
    arrayItems items = items.map toBytes := by
  induction items with
  | nil => rfl
  | cons v rest ih =>
    rw [List.map_cons, ← ih]
    rfl

theorem joinWith_append (sep : ByteStr) {xs ys : List ByteStr}
    (hxs : xs ≠ []) (hys : ys ≠ []) :
    joinWith sep (xs ++ ys) = joinWith sep xs ++ sep ++ joinWith sep ys := by
  induction xs with
  | nil => exact absurd rfl hxs
  | cons x xs' ih =>
    cases xs' with
    | nil =>
      cases ys with
      | nil => exact absurd rfl hys
      | cons y t => rfl
    | cons x2 xs'' =>
      rw [List.cons_append, List.cons_append, joinWith, ← List.cons_append,
        ih (by simp), joinWith]
      simp [List.append_assoc]

theorem startsWithB_append_self (p t : ByteStr) :
    startsWithB p (p ++ t) = true := by
  induction p with
  | nil => rfl
  | cons b p' ih =>
    rw [List.cons_append, startsWithB, ih]
    simp

theorem hasSub_of_startsWithB {pat s : ByteStr}
    (h : startsWithB pat s = true) : hasSub pat s = true := by
  cases s with
  | nil => exact h
  | cons b rest =>
    rw [hasSub, h, Bool.true_or]

theorem hasSub_append (pat a b : ByteStr) :
    hasSub pat (a ++ (pat ++ b)) = true := by
  induction a with
  | nil =>
    rw [List.nil_append]
    exact hasSub_of_startsWithB (startsWithB_append_self pat b)
  | cons x a' ih =>
    rw [List.cons_append, hasSub, ih, Bool.or_true]

/-! ## C8: add_page — what is appended to Kids -/

/-- **C8 counterexample.** `add_page` appends the literal triplet
`[number, 0, 'R']`, not the page's generation: for a page whose
`generation` attribute is 1, the page's reference is `4 1 R` while
`Kids` receives `4 0 R`, and the encoded `Kids` array does not contain
the page's reference. -/
theorem add_page_generation_cex :
    genOnePage.generation = 1 ∧
    (addPage genOnePage freshPDF).objects.getD 4 default =
      ⟨some 4, 0, 1, 'n', .dict []⟩ ∧
    ((addPage genOnePage freshPDF).objects.getD 4 default).reference =
      asciiBytes "4 1 R" ∧
    dictLookup "Kids"
        (objEntries ((addPage genOnePage freshPDF).objects.getD 1 default)) =
      some (.varray [.vint 4, .vint 0, .vstr "R"]) ∧
    hasSub (asciiBytes "4 1 R")
      (toBytes (.varray [.vint 4, .vint 0, .vstr "R"])) = false :=
  ⟨rfl, rfl, rfl, rfl, by decide⟩

/-- **C8 (amended).** `add_page` increments the page tree's `Count` by
exactly one, registers the page under the next object number, and
appends the triplet `[number, 0, 'R']` — the literal generation `0`, not
the page's `generation` attribute — to the page tree's `Kids`; when the
page's generation is 0 (the default, and the only case `add_page` is
designed for) that triplet is the page's reference, which then occurs in
the encoded `Kids` array. -/
theorem add_page_spec (p : Obj) (s : PDFState) (pe : List (String × PDFVal))
    (c : Int) (ks : List PDFVal)
    (h1 : 1 < s.objects.length)
    (h2 : s.objects.getD 1 default = po)
    (h3 : po.payload = .dict pe)
    (h4 : dictLookup "Count" pe = some (.vint c))
    (h5 : dictLookup "Kids" pe = some (.varray ks)) :
    (addPage p s).objects.length = s.objects.length + 1 ∧
    (addPage p s).objects.getD s.objects.length default =
      { p with number := some s.objects.length } ∧
    dictLookup "Count"
        (objEntries ((addPage p s).objects.getD 1 default)) =
      some (.vint (c + 1)) ∧
    dictLookup "Kids"
        (objEntries ((addPage p s).objects.getD 1 default)) =
      some (.varray (ks ++
        [.vint (s.objects.length : Nat), .vint 0, .vstr "R"])) ∧
    (p.generation = 0 →
      hasSub ({ p with number := some s.objects.length } : Obj).reference
        (toBytes (.varray (ks ++
          [.vint (s.objects.length : Nat), .vint 0, .vstr "R"]))) = true) := by
  have hn : (modifyAt (objMapDict (dictModifyKey "Count" incrVal)) 1
      s.objects).length = s.objects.length := modifyAt_length _ _ _
  have h1' : 1 < (modifyAt (objMapDict (dictModifyKey "Count" incrVal)) 1
      s.objects).length := by
    rw [hn]
    exact h1
  have hobj : (addPage p s).objects =
      modifyAt (objMapDict (dictModifyKey "Kids" (extendArr
        [.vint (s.objects.length : Nat), .vint 0, .vstr "R"]))) 1
        (modifyAt (objMapDict (dictModifyKey "Count" incrVal)) 1 s.objects) ++
      [{ p with number := some s.objects.length }] := by
    rw [addPage]
    simp only [addObject, Option.getD_some, hn]
    exact modifyAt_append _ _ h1'
  have hlen2 : (modifyAt (objMapDict (dictModifyKey "Kids" (extendArr
      [.vint (s.objects.length : Nat), .vint 0, .vstr "R"]))) 1
      (modifyAt (objMapDict (dictModifyKey "Count" incrVal)) 1
        s.objects)).length = s.objects.length := by
    rw [modifyAt_length, hn]
  have hent : objEntries ((addPage p s).objects.getD 1 default) =
      dictModifyKey "Kids" (extendArr
        [.vint (s.objects.length : Nat), .vint 0, .vstr "R"])
        (dictModifyKey "Count" incrVal pe) := by
    rw [hobj, List.getD_append _ _ _ _ (by rw [hlen2] ; exact h1),
      getD_modifyAt_self _ default h1', getD_modifyAt_self _ default h1,
      h2, objMapDict_eq h3, objMapDict_eq rfl]
    rfl
  refine ⟨?_, ?_, ?_, ?_, ?_⟩
  · rw [hobj, List.length_append, hlen2]
    simp
  · rw [hobj, List.getD_append_right _ _ _ _ hlen2.le, hlen2, Nat.sub_self]
    rfl
  · rw [hent, dictLookup_dictModifyKey_ne (by decide),
      dictLookup_dictModifyKey_self, h4]
    rfl
  · rw [hent, dictLookup_dictModifyKey_self,
      dictLookup_dictModifyKey_ne (by decide), h5]
    rfl
  · intro hg
    have e1 : toBytes (PDFVal.vint (s.objects.length : Nat)) =
        natToDigits s.objects.length := rfl
    have e2 : toBytes (PDFVal.vint 0) = [48] := rfl
    have e3 : toBytes (PDFVal.vstr "R") = [82] := rfl
    have hspace : asciiBytes " R" = [32, 82] := rfl
    rw [toBytes, arrayItems_eq_map, List.map_append]
    simp only [List.map_cons, List.map_nil, e1, e2, e3]
    have hsplit2 : ([[91]] ++ (List.map toBytes ks ++
        [natToDigits s.objects.length, [48], [82]])) ++ [[93]] =
        ([[91]] ++ List.map toBytes ks) ++
          [natToDigits s.objects.length, [48], [82], [93]] := by
      simp [List.append_assoc]
    rw [hsplit2, joinWith_append [32] (by simp) (by simp)]
    have key : joinWith [32] ([[91]] ++ List.map toBytes ks) ++ [32] ++
        joinWith [32] [natToDigits s.objects.length, [48], [82], [93]] =
        (joinWith [32] ([[91]] ++ List.map toBytes ks) ++ [32]) ++
          (({ p with number := some s.objects.length } : Obj).reference ++
            [32, 93]) := by
      simp [joinWith, Obj.reference, numRepr, hg, hspace, natToDigits,
        natDigitsAux, List.append_assoc]
    rw [key]
    exact hasSub_append _ _ _

/-! ## Lemmas about the writer phases -/

theorem writeLine_spec (content : ByteStr) (s : PDFState) :
    writeLine content s =
      ({ s with currentPosition := s.currentPosition + content.length + 1 },
       content ++ [10]) := rfl

theorem splitNl_ne_nil (bs : ByteStr) : splitNl bs ≠ [] := by
  cases bs with
  | nil => simp [splitNl]
  | cons b rest =>
    rw [splitNl]
    by_cases hb : b = 10
    · simp [hb]
    · simp only [hb, if_false]
      cases h : splitNl rest <;> simp

theorem joinWith_splitNl (bs : ByteStr) : joinWith [10] (splitNl bs) = bs := by
  induction bs with
  | nil => rfl
  | cons b rest ih =>
    rw [splitNl]
    by_cases hb : b = 10
    · rw [if_pos hb]
      obtain ⟨l, ls, hls⟩ : ∃ l ls, splitNl rest = l :: ls := by
        cases h : splitNl rest with
        | nil => exact absurd h (splitNl_ne_nil rest)
        | cons l ls => exact ⟨l, ls, rfl⟩
      rw [hls] at ih ⊢
      have hg : joinWith [10] ([] :: l :: ls) =
          ([] ++ [10]) ++ joinWith [10] (l :: ls) := rfl
      rw [hg, ih, hb]
      rfl
    · rw [if_neg hb]
      cases h : splitNl rest with
      | nil => exact absurd h (splitNl_ne_nil rest)
      | cons l ls =>
        rw [h] at ih
        cases ls with
        | nil =>
          have hi : l = rest := ih
          rw [hi]
          rfl
        | cons l2 ls2 =>
          have hi : (l ++ [10]) ++ joinWith [10] (l2 :: ls2) = rest := ih
          have hg : joinWith [10] ((b :: l) :: l2 :: ls2) =
              ((b :: l) ++ [10]) ++ joinWith [10] (l2 :: ls2) := rfl
          rw [hg, List.cons_append, List.cons_append, hi]

theorem writeLines_fst (ls : List ByteStr) (s : PDFState) :
    (writeLines ls s).1 =
      { s with currentPosition :=
          s.currentPosition + (ls.map fun l => l.length + 1).sum } := by
  induction ls generalizing s with
  | nil => simp [writeLines]
  | cons l rest ih =>
    have step : (writeLines (l :: rest) s).1 =
        (writeLines rest (writeLine l s).1).1 := rfl
    rw [step, ih, writeLine]
    simp only [List.map_cons, List.sum_cons]
    congr 1
    omega

theorem writeLines_snd (ls : List ByteStr) (s : PDFState) :
    (writeLines ls s).2 = (ls.map fun l => l ++ [10]).flatten := by
  induction ls generalizing s with
  | nil => rfl
  | cons l rest ih =>
    have step : (writeLines (l :: rest) s).2 =
        (writeLine l s).2 ++ (writeLines rest (writeLine l s).1).2 := rfl
    rw [step, ih]
    rfl

theorem sum_lines_eq {ls : List ByteStr} (h : ls ≠ []) :
    (ls.map fun l => l.length + 1).sum = (joinWith [10] ls).length + 1 := by
  induction ls with
  | nil => exact absurd rfl h
  | cons l rest ih =>
    cases rest with
    | nil => simp [joinWith]
    | cons l2 t =>
      rw [List.map_cons, List.sum_cons, ih (by simp)]
      have hg : joinWith [10] (l :: l2 :: t) =
          (l ++ [10]) ++ joinWith [10] (l2 :: t) := rfl
      rw [hg]
      simp [List.length_append]
      omega

theorem join_lines_eq {ls : List ByteStr} (h : ls ≠ []) :
    (ls.map fun l => l ++ [10]).flatten = joinWith [10] ls ++ [10] := by
  induction ls with
  | nil => exact absurd rfl h
  | cons l rest ih =>
    cases rest with
    | nil => simp [joinWith]
    | cons l2 t =>
      have hg : ((l :: l2 :: t).map fun l => l ++ [10]).flatten =
          (l ++ [10]) ++ ((l2 :: t).map fun l => l ++ [10]).flatten := rfl
      rw [hg, ih (by simp)]
      have hj : joinWith [10] (l :: l2 :: t) =
          (l ++ [10]) ++ joinWith [10] (l2 :: t) := rfl
      rw [hj]
      simp [List.append_assoc]

theorem writeObject_spec (d : ByteStr) (s : PDFState) :
    writeObject d s =
      ({ s with currentPosition := s.currentPosition + d.length + 1 },
       d ++ [10]) := by
  have h := splitNl_ne_nil d
  apply Prod.ext
  · rw [writeObject, writeLines_fst, sum_lines_eq h, joinWith_splitNl]
    congr 1
  · rw [writeObject, writeLines_snd, join_lines_eq h, joinWith_splitNl]

theorem writeHeader_spec (s : PDFState) :
    writeHeader s =
      ({ s with currentPosition := s.currentPosition + 15 }, headerOut) := by
  have h : s.currentPosition + 15 =
      s.currentPosition + ((asciiBytes "%PDF-1.7").length + 1) +
        (headerMarker.length + 1) := by
    have e1 : (asciiBytes "%PDF-1.7").length = 8 := rfl
    have e2 : headerMarker.length = 5 := rfl
    rw [e1, e2]
  rw [h]
  rfl

theorem xrefRows_fst (os : List Obj) (s : PDFState) :
    (xrefRows os s).1 =
      { s with currentPosition :=
          s.currentPosition + (os.map fun o => (xrefRow o).length + 1).sum } := by
  induction os generalizing s with
  | nil => simp [xrefRows]
  | cons o rest ih =>
    have step : (xrefRows (o :: rest) s).1 =
        (xrefRows rest (writeLine (xrefRow o) s).1).1 := rfl
    rw [step, ih, writeLine]
    simp only [List.map_cons, List.sum_cons]
    congr 1
    omega

theorem xrefRows_snd (os : List Obj) (s : PDFState) :
    (xrefRows os s).2 = (os.map fun o => xrefRow o ++ [10]).flatten := by
  induction os generalizing s with
  | nil => rfl
  | cons o rest ih =>
    have step : (xrefRows (o :: rest) s).2 =
        (writeLine (xrefRow o) s).2 ++
          (xrefRows rest (writeLine (xrefRow o) s).1).2 := rfl
    rw [step, ih]
    rfl

theorem writeXref_fst (s : PDFState) :
    (writeXref s).1 =
      { s with
        currentPosition := s.currentPosition + 5 +
          ((asciiBytes "0 " ++ natToDigits s.objects.length).length + 1) +
          (s.objects.map fun o => (xrefRow o).length + 1).sum,
        xrefPosition := some s.currentPosition } := by
  have step : (writeXref s).1 =
      (xrefRows s.objects
        (writeLine (asciiBytes "0 " ++ natToDigits s.objects.length)
          (writeLine (asciiBytes "xref")
            { s with xrefPosition := some s.currentPosition }).1).1).1 := rfl
  rw [step, xrefRows_fst, writeLine, writeLine]
  simp only
  congr 2

theorem writeXref_snd (s : PDFState) :
    (writeXref s).2 = xrefTableBytes s.objects := by
  have step : (writeXref s).2 =
      (writeLine (asciiBytes "xref")
          { s with xrefPosition := some s.currentPosition }).2 ++
        (writeLine (asciiBytes "0 " ++ natToDigits s.objects.length)
          (writeLine (asciiBytes "xref")
            { s with xrefPosition := some s.currentPosition }).1).2 ++
        (xrefRows s.objects
          (writeLine (asciiBytes "0 " ++ natToDigits s.objects.length)
            (writeLine (asciiBytes "xref")
              { s with xrefPosition := some s.currentPosition }).1).1).2 := rfl
  rw [step, xrefRows_snd]
  rfl

theorem writeTrailer_spec (s : PDFState) :
    writeTrailer s =
      ({ s with currentPosition := s.currentPosition + 8 +
          ((dictData (trailerEntries s)).length + 1) + 10 +
          ((numRepr s.xrefPosition).length + 1) + 6 },
       trailerBytes s) := by
  have e1 : (asciiBytes "trailer").length = 7 := rfl
  have e2 : (asciiBytes "startxref").length = 9 := rfl
  have e3 : (asciiBytes "%%EOF").length = 5 := rfl
  apply Prod.ext
  · show (writeLine (asciiBytes "%%EOF")
        (writeLine (numRepr (writeLine (asciiBytes "startxref")
            (writeObject (dictData (trailerEntries s))
              (writeLine (asciiBytes "trailer") s).1).1).1.xrefPosition)
          (writeLine (asciiBytes "startxref")
            (writeObject (dictData (trailerEntries s))
              (writeLine (asciiBytes "trailer") s).1).1).1).1).1 = _
    rw [writeObject_spec (dictData (trailerEntries s))]
    simp only [writeLine]
    congr 1
  · show (writeLine (asciiBytes "trailer") s).2 ++
        (writeObject (dictData (trailerEntries s))
          (writeLine (asciiBytes "trailer") s).1).2 ++ _ ++ _ ++ _ = _
    rw [writeObject_spec (dictData (trailerEntries s))]
    simp only [writeLine]
    rfl

theorem shiftObj_free (o : Obj) (h : o.free = 'f') (k : Nat) :
    shiftObj k o = o := by
  rw [shiftObj, if_pos h]

theorem shiftObj_nonfree (o : Obj) (h : ¬ o.free = 'f') (k : Nat) :
    shiftObj k o = { o with offset := k + o.offset } := by
  rw [shiftObj, if_neg h]

theorem bodyStep_pos {fn : ByteStr → ByteStr} :
    ∀ {os : List Obj} {p : Nat} {l : List Obj} {q : Nat} {out : ByteStr},
      bodyStep fn p os = some (l, q, out) → q = p + out.length := by
  intro os
  induction os with
  | nil =>
    intro p l q out h
    rw [bodyStep] at h
    simp only [Option.some.injEq, Prod.mk.injEq] at h
    obtain ⟨h1, h2, h3⟩ := h
    subst h2
    subst h3
    rfl
  | cons o rest ih =>
    intro p l q out h
    rw [bodyStep] at h
    by_cases hf : o.free = 'f'
    · rw [if_pos hf] at h
      cases hr : bodyStep fn p rest with
      | none =>
        rw [hr] at h
        simp at h
      | some r =>
        obtain ⟨rl, rq, rout⟩ := r
        rw [hr] at h
        simp only [Option.map_some', Option.some.injEq, Prod.mk.injEq] at h
        obtain ⟨h1, h2, h3⟩ := h
        subst h2
        subst h3
        exact ih hr
    · rw [if_neg hf] at h
      split at h
      · simp at h
      · rename_i ind hi
        cases hr : bodyStep fn (p + ind.length + 1) rest with
        | none =>
          rw [hr] at h
          simp at h
        | some r =>
          obtain ⟨rl, rq, rout⟩ := r
          rw [hr] at h
          simp only [Option.map_some', Option.some.injEq, Prod.mk.injEq] at h
          obtain ⟨h1, h2, h3⟩ := h
          subst h2
          subst h3
          have hq := ih hr
          simp only [List.length_append, List.length_cons, List.length_nil]
          omega

theorem bodyStep_shift (fn : ByteStr → ByteStr) (k : Nat) :
    ∀ (os : List Obj) (q : Nat),
      bodyStep fn (k + q) os =
        (bodyStep fn q os).map fun r =>
          (r.1.map (shiftObj k), k + r.2.1, r.2.2) := by
  intro os
  induction os with
  | nil => intro q; rfl
  | cons o rest ih =>
    intro q
    rw [bodyStep, bodyStep]
    by_cases hf : o.free = 'f'
    · rw [if_pos hf, if_pos hf, ih q]
      cases hr : bodyStep fn q rest with
      | none => rfl
      | some r =>
        simp only [Option.map_some', List.map_cons]
        have hso : shiftObj k o = o := shiftObj_free o hf k
        simp [hso]
    · rw [if_neg hf, if_neg hf]
      cases hi : Obj.indirect fn o with
      | none => rfl
      | some ind =>
        dsimp only
        have hadd : k + q + ind.length + 1 = k + (q + ind.length + 1) := by
          omega
        rw [hadd, ih (q + ind.length + 1)]
        cases hr : bodyStep fn (q + ind.length + 1) rest with
        | none => rfl
        | some r =>
          simp only [Option.map_some', List.map_cons]
          have hso : shiftObj k { o with offset := q } =
              { o with offset := k + q } :=
            shiftObj_nonfree { o with offset := q } hf k
          simp [hso]

theorem bodyStep_idem {fn : ByteStr → ByteStr} :
    ∀ {os : List Obj} {p : Nat} {l : List Obj} {q : Nat} {out : ByteStr},
      bodyStep fn p os = some (l, q, out) →
      bodyStep fn p l = some (l, q, out) := by
  intro os
  induction os with
  | nil =>
    intro p l q out h
    rw [bodyStep] at h
    simp only [Option.some.injEq, Prod.mk.injEq] at h
    obtain ⟨h1, h2, h3⟩ := h
    subst h1
    subst h2
    subst h3
    rfl
  | cons o rest ih =>
    intro p l q out h
    rw [bodyStep] at h
    by_cases hf : o.free = 'f'
    · rw [if_pos hf] at h
      cases hr : bodyStep fn p rest with
      | none =>
        rw [hr] at h
        simp at h
      | some r =>
        obtain ⟨rl, rq, rout⟩ := r
        rw [hr] at h
        simp only [Option.map_some', Option.some.injEq, Prod.mk.injEq] at h
        obtain ⟨h1, h2, h3⟩ := h
        subst h2
        subst h3
        subst h1
        rw [bodyStep, if_pos hf, ih hr]
        rfl
    · rw [if_neg hf] at h
      split at h
      · simp at h
      · rename_i ind hi
        cases hr : bodyStep fn (p + ind.length + 1) rest with
        | none =>
          rw [hr] at h
          simp at h
        | some r =>
          obtain ⟨rl, rq, rout⟩ := r
          rw [hr] at h
          simp only [Option.map_some', Option.some.injEq, Prod.mk.injEq] at h
          obtain ⟨h1, h2, h3⟩ := h
          subst h2
          subst h3
          subst h1
          rw [bodyStep]
          have hf2 : ¬ ({ o with offset := p } : Obj).free = 'f' := hf
          rw [if_neg hf2]
          have hi2 : Obj.indirect fn { o with offset := p } = some ind := hi
          rw [hi2]
          dsimp only
          rw [ih hr]
          simp only [Option.map_some']

theorem flatten_rows_length (os : List Obj) :
    ((os.map fun o => xrefRow o ++ [10]).flatten).length =
      (os.map fun o => (xrefRow o).length + 1).sum := by
  induction os with
  | nil => rfl
  | cons o rest ih =>
    simp only [List.map_cons, List.flatten_cons, List.length_append,
      List.sum_cons, ih, List.length_cons, List.length_nil]

theorem writeXref_pos_out (s : PDFState) :
    (writeXref s).1.currentPosition =
      s.currentPosition + (writeXref s).2.length := by
  rw [writeXref_fst, writeXref_snd]
  simp only [xrefTableBytes, List.length_append, flatten_rows_length,
    List.length_cons, List.length_nil]
  have e1 : (asciiBytes "xref").length = 4 := rfl
  rw [e1]
  omega

theorem writeTrailer_pos_out (s : PDFState) :
    (writeTrailer s).1.currentPosition =
      s.currentPosition + (writeTrailer s).2.length := by
  rw [writeTrailer_spec]
  simp only [trailerBytes, List.length_append, List.length_cons,
    List.length_nil]
  have e1 : (asciiBytes "trailer").length = 7 := rfl
  have e2 : (asciiBytes "startxref").length = 9 := rfl
  have e3 : (asciiBytes "%%EOF").length = 5 := rfl
  rw [e1, e2, e3]
  omega

/-! ## C9: cross-reference table format -/

/-- **C9.** The cross-reference phase records the table position and
emits `xref`, the subsection line `0 <count>` with the total object
count, then exactly one row per object of the list in order (free head
included): 10-digit zero-padded offset, space, 5-digit zero-padded
generation, space, free flag, trailing space, newline — 20 bytes when
offset and generation fit their fields; and every full `write`'s output
contains exactly this section between body and trailer. -/
theorem xref_table_format (s : PDFState) :
    (writeXref s).2 = xrefTableBytes s.objects ∧
    (writeXref s).1.xrefPosition = some s.currentPosition ∧
    xrefTableBytes s.objects =
      (asciiBytes "xref" ++ [10]) ++
        ((asciiBytes "0 " ++ natToDigits s.objects.length) ++ [10]) ++
        (s.objects.map fun o => xrefRow o ++ [10]).flatten ∧
    (∀ o ∈ s.objects, o.offset < 10 ^ 10 → o.generation < 10 ^ 5 →
      (xrefRow o ++ [10]).length = 20 ∧
      xrefRow o = padZeros 10 (natToDigits o.offset) ++ [32] ++
        padZeros 5 (natToDigits o.generation) ++ [32] ++
        [o.free.toNat] ++ [32]) ∧
    ∀ fn s' out, writePDF fn s = some (s', out) →
      ∃ bodyBytes tailBytes,
        out = headerOut ++ bodyBytes ++ xrefTableBytes s'.objects ++
          tailBytes := by
  refine ⟨writeXref_snd s, ?_, rfl, ?_, ?_⟩
  · rw [writeXref_fst]
  · intro o ho hoff hgen
    have l1 : (padZeros 10 (natToDigits o.offset)).length = 10 := by
      rw [padZeros_length]
      have := natToDigits_length_le (by omega : 1 ≤ 10) hoff
      omega
    have l2 : (padZeros 5 (natToDigits o.generation)).length = 5 := by
      rw [padZeros_length]
      have := natToDigits_length_le (by omega : 1 ≤ 5) hgen
      omega
    refine ⟨?_, rfl⟩
    simp only [xrefRow, List.length_append, List.length_cons,
      List.length_nil, l1, l2]
  · intro fn s' out h
    rw [writePDF] at h
    cases hb : writeBody fn (writeHeader s).1 with
    | none =>
      rw [hb] at h
      simp at h
    | some b =>
      rw [hb] at h
      dsimp only at h
      simp only [Option.some.injEq, Prod.mk.injEq] at h
      obtain ⟨hs1, hout1⟩ := h
      have hobjs : s'.objects = b.1.objects := by
        rw [← hs1, writeTrailer_spec]
        dsimp only
        rw [writeXref_fst]
      refine ⟨b.2, (writeTrailer (writeXref b.1).1).2, ?_⟩
      rw [← hout1, hobjs]
      have hh : (writeHeader s).2 = headerOut := by rw [writeHeader_spec]
      rw [hh, writeXref_snd]

theorem firstWrite_spec : writePDF id freshPDF = some firstWrite := by rfl

theorem secondWrite_spec :
    writePDF id firstWrite.1 = some secondWrite := by rfl

/-! ## C1: offsets recorded for a freshly constructed document -/

/-- **C1.** `write_line` advances the running position by exactly the
content's byte length plus one (the newline), and — because that counter
is the offset recorder — after a single `write` on a freshly constructed
document every in-use object's recorded offset is the byte position in
the output at which its indirect form (`<number> <generation> obj` …)
begins. -/
theorem fresh_write_offsets :
    (∀ (c : ByteStr) (s : PDFState),
      (writeLine c s).1.currentPosition = s.currentPosition + c.length + 1 ∧
      (writeLine c s).2 = c ++ [10]) ∧
    ∀ s' out, writePDF id freshPDF = some (s', out) →
      ∀ o ∈ s'.objects, o.free = 'n' → indirectShownAt id o out = true := by
  refine ⟨fun c s => ⟨rfl, rfl⟩, ?_⟩
  intro s' out h
  rw [firstWrite_spec] at h
  have h' := Option.some.inj h
  rw [Prod.ext_iff] at h'
  obtain ⟨h1, h2⟩ := h'
  subst h1
  subst h2
  decide

/-- **C1 witness**: the page-tree object of the freshly written document
(the first in-use object) indeed appears at its recorded offset. -/
theorem fresh_write_offsets_witness :
    indirectShownAt id (firstWrite.1.objects.getD 1 default) firstWrite.2 =
      true :=
  fresh_write_offsets.2 firstWrite.1 firstWrite.2 firstWrite_spec
    (firstWrite.1.objects.getD 1 default)
    (by
      have hn : 1 < firstWrite.1.objects.length := by decide
      rw [List.getD_eq_getElem firstWrite.1.objects default hn]
      exact List.getElem_mem hn)
    (by decide)

/-! ## C2: write is not idempotent — the offsets shift -/

/-- **C2 counterexample.** On a freshly constructed document, two
successive `write` calls to separate sinks both succeed but produce
different bytes: `write` never resets `current_position`, so the second
call records shifted offsets. -/
theorem write_twice_differs :
    writePDF id freshPDF = some firstWrite ∧
    writePDF id firstWrite.1 = some secondWrite ∧
    firstWrite.2 ≠ secondWrite.2 :=
  ⟨firstWrite_spec, secondWrite_spec, by decide⟩

/-- **C2 (amended).** Calling `write` twice in succession (any document,
any sinks) does not reproduce the first output byte for byte; instead
the second call leaves the same objects with every in-use offset
increased by exactly the first output's byte length, records a
cross-reference position increased by the same amount, and would emit
identical body bytes — the divergence is exactly the offset shift caused
by the unreset running position counter. -/
theorem write_write_shift (fn : ByteStr → ByteStr) (s s1 s2 : PDFState)
    (out1 out2 : ByteStr)
    (h1 : writePDF fn s = some (s1, out1))
    (h2 : writePDF fn s1 = some (s2, out2)) :
    s2.objects = s1.objects.map (shiftObj out1.length) ∧
    s2.xrefPosition = s1.xrefPosition.map (fun x => out1.length + x) ∧
    bodyOutput fn s1 = bodyOutput fn s := by
  rw [writePDF] at h1
  cases hb : writeBody fn (writeHeader s).1 with
  | none =>
    rw [hb] at h1
    simp at h1
  | some b =>
    obtain ⟨B, bout⟩ := b
    rw [hb] at h1
    dsimp only at h1
    simp only [Option.some.injEq, Prod.mk.injEq] at h1
    obtain ⟨hs1, hout1⟩ := h1
    rw [writeBody, writeHeader_spec] at hb
    dsimp only at hb
    cases hr : bodyStep fn (s.currentPosition + 15) s.objects with
    | none =>
      rw [hr] at hb
      simp at hb
    | some r =>
      obtain ⟨bl, bq, bbytes⟩ := r
      rw [hr] at hb
      simp only [Option.map_some', Option.some.injEq, Prod.mk.injEq] at hb
      obtain ⟨hB, hbout⟩ := hb
      subst hbout
      subst hB
      have hbq : bq = (s.currentPosition + 15) + bbytes.length :=
        bodyStep_pos hr
      have hs1objects : s1.objects = bl := by
        rw [← hs1, writeTrailer_spec]
        dsimp only
        rw [writeXref_fst]
      have hs1xref : s1.xrefPosition = some bq := by
        rw [← hs1, writeTrailer_spec]
        dsimp only
        rw [writeXref_fst]
      have hs1pos : s1.currentPosition =
          s.currentPosition + out1.length := by
        rw [← hs1, writeTrailer_pos_out, writeXref_pos_out, ← hout1]
        have hh : (writeHeader s).2 = headerOut := by rw [writeHeader_spec]
        rw [hh]
        have hhl : headerOut.length = 15 := rfl
        simp only [List.length_append, hhl]
        omega
      have hidem := bodyStep_idem hr
      have hshift :=
        bodyStep_shift fn out1.length bl (s.currentPosition + 15)
      rw [hidem] at hshift
      rw [writePDF] at h2
      cases hb2 : writeBody fn (writeHeader s1).1 with
      | none =>
        exfalso
        rw [writeBody, writeHeader_spec] at hb2
        dsimp only at hb2
        rw [hs1objects, hs1pos] at hb2
        have e : s.currentPosition + out1.length + 15 =
            out1.length + (s.currentPosition + 15) := by omega
        rw [e, hshift] at hb2
        simp at hb2
      | some b2 =>
        obtain ⟨B2, b2out⟩ := b2
        rw [hb2] at h2
        dsimp only at h2
        simp only [Option.some.injEq, Prod.mk.injEq] at h2
        obtain ⟨hs2, hout2⟩ := h2
        rw [writeBody, writeHeader_spec] at hb2
        dsimp only at hb2
        rw [hs1objects, hs1pos] at hb2
        have e : s.currentPosition + out1.length + 15 =
            out1.length + (s.currentPosition + 15) := by omega
        rw [e, hshift] at hb2
        simp only [Option.map_some', Option.some.injEq, Prod.mk.injEq] at hb2
        obtain ⟨hB2, hb2out⟩ := hb2
        have hs2objects : s2.objects = bl.map (shiftObj out1.length) := by
          rw [← hs2, writeTrailer_spec]
          dsimp only
          rw [writeXref_fst]
          dsimp only
          rw [← hB2]
        have hs2xref : s2.xrefPosition = some (out1.length + bq) := by
          rw [← hs2, writeTrailer_spec]
          dsimp only
          rw [writeXref_fst]
          dsimp only
          rw [← hB2]
        refine ⟨?_, ?_, ?_⟩
        · rw [hs2objects, hs1objects]
        · rw [hs2xref, hs1xref]
          rfl
        · rw [bodyOutput, bodyOutput, writeBody, writeBody,
            writeHeader_spec, writeHeader_spec]
          dsimp only
          rw [hs1objects, hs1pos, e, hshift, hr]
          rfl

/-- **C2 (amended) witness**: the general shift theorem applied to the
two successive writes of the freshly constructed document. -/
theorem write_write_shift_witness :
    secondWrite.1.objects =
      firstWrite.1.objects.map (shiftObj firstWrite.2.length) ∧
    secondWrite.1.xrefPosition =
      firstWrite.1.xrefPosition.map (fun x => firstWrite.2.length + x) ∧
    bodyOutput id firstWrite.1 = bodyOutput id freshPDF :=
  write_write_shift id freshPDF firstWrite.1 secondWrite.1
    firstWrite.2 secondWrite.2 firstWrite_spec secondWrite_spec

/-! ## Witnesses: the claim theorems applied at concrete inputs -/

/-- **C3 witness**: the integral float `2.0` and the integer `-17`. -/
theorem toBytes_numeric_forms_witness :
    floatToBytes (2 : ℚ) = intToBytes (2 : ℚ).num ∧
    intToBytes (-17) =
      (if (-17 : Int) < 0 then [45] else []) ++
        natToDigits (-17 : Int).natAbs :=
  ⟨((toBytes_numeric_forms 2 (-17)).1 (by decide)).1,
   (toBytes_numeric_forms 2 (-17)).2.2.1⟩

/-- **C4 witness**: the all-ASCII text `"hello"` stays literal. -/
theorem stringData_cases_witness :
    stringData "hello" = [40] ++ asciiBytes "hello" ++ [41] :=
  (stringData_cases "hello").1 (by decide)

/-- **C5 witness**: a compressed one-token stream gets the deflate body
and the `Filter` entry. -/
theorem streamData_spec_witness :
    streamBody id ⟨[.vbytes [66, 84]], [], true⟩ =
      id (streamRaw ⟨[.vbytes [66, 84]], [], true⟩) ∧
    dictLookup "Filter" (streamFinalExtra id ⟨[.vbytes [66, 84]], [], true⟩) =
      some (.vstr "/FlateDecode") :=
  (streamData_spec id ⟨[.vbytes [66, 84]], [], true⟩).2.2.1 rfl

/-- **C6 witness**: registration into the fresh document leaves entry 0
untouched. -/
theorem fresh_document_numbering_witness :
    (addObject default freshPDF).2.objects.getD 0 default =
      freshPDF.objects.getD 0 default :=
  (fresh_document_numbering.2.2.2.2.2.2 default freshPDF).2.2.2 0 (by decide)

/-- **C7 witness**: the two-entry example dictionary. -/
theorem dictionary_data_format_witness :
    dictData [("Type", PDFVal.vstr "/Page"), ("Count", PDFVal.vint 3)] =
      asciiBytes "<<\n/Type /Page\n/Count 3\n>>" :=
  (dictionary_data_format []).2

/-- **C8 (amended) witness**: adding a default-generation page to the
fresh document puts its reference inside the encoded `Kids`. -/
theorem add_page_spec_witness :
    hasSub
      ({ (⟨none, 0, 0, 'n', .dict []⟩ : Obj) with
          number := some freshPDF.objects.length } : Obj).reference
      (toBytes (.varray
        (([] : List PDFVal) ++
          [.vint (freshPDF.objects.length : Nat), .vint 0, .vstr "R"]))) =
      true :=
  (add_page_spec ⟨none, 0, 0, 'n', .dict []⟩ freshPDF pagesEntries 0 []
    (by decide) rfl rfl rfl rfl).2.2.2.2 rfl

/-- **C9 witness**: the fresh document's cross-reference section, and
the 20-byte row of the reserved free head. -/
theorem xref_table_format_witness :
    (writeXref freshPDF).2 = xrefTableBytes freshPDF.objects ∧
    (xrefRow (freshPDF.objects.getD 0 default) ++ [10]).length = 20 :=
  ⟨(xref_table_format freshPDF).1,
   ((xref_table_format freshPDF).2.2.2.1 (freshPDF.objects.getD 0 default)
      (by
        have hn : 0 < freshPDF.objects.length := by decide
        rw [List.getD_eq_getElem freshPDF.objects default hn]
        exact List.getElem_mem hn)
      (by decide) (by decide)).1⟩

/-- **C10 witness**: a caller-supplied `Type` entry survives encoding of
a compressed stream unchanged. -/
theorem streamData_no_mutation_witness :
    dictLookup "Type"
        (streamFinalExtra id ⟨[], [("Type", .vstr "/XObject")], true⟩) =
      dictLookup "Type" [("Type", PDFVal.vstr "/XObject")] :=
  (streamData_no_mutation id ⟨[], [("Type", .vstr "/XObject")], true⟩
    "Type").2.2.2.2 (by decide) (by decide)

end Pydyf
